import Mathlib

/- Verification development for the notes-gen repository (src/note_generator.py).

   Modelling conventions:
   * The chunker (`chunk_text`) works character-by-character, so its text inputs
     are modelled as `List Char`; Python `str.split(".")` is `splitOnDot`.
   * Python `int` sizes are modelled as `Int` (the length comparison in
     `chunk_text` is the only arithmetic on them).
   * The generation pipeline treats chunks, prompts and documents as opaque
     strings, so those are Lean `String`s.  The external generative model call
     `model.generate_content(prompt).text` is a parameter
     `gen : String → Except String String`; `Except.error` models a raised
     exception, `Except.ok` the response text.
   * Writes to `progress.json` and the chunk indices handed to the generation
     step are recorded as an explicit event trace (`Event`). -/

namespace NotesGen

/-- Python `text.split(".")` on a character list: the maximal dot-free pieces,
empty pieces kept, always at least one piece (`"".split(".") == [""]`). -/
def splitOnDot : List Char → List (List Char)
  | [] => [[]]
  | c :: rest =>
    if c = '.' then [] :: splitOnDot rest
    else
      match splitOnDot rest with
      | [] => [[c]]
      | p :: ps => (c :: p) :: ps

/-- Loop body of `chunk_text` (src/note_generator.py lines 74-79).  The state is
the pair (chunks so far, current buffer). -/
def chunkStep (max_chunk_size : Int) (st : List (List Char) × List Char)
    (sentence : List Char) : List (List Char) × List Char :=
  if (st.2.length + sentence.length : Int) < max_chunk_size then
    (st.1, st.2 ++ sentence ++ ['.'])
  else
    (st.1 ++ [st.2], sentence ++ ['.'])

/-- `chunk_text` from src/note_generator.py lines 61-82: split on the dot,
greedily refill a buffer, flush a non-empty trailing buffer. -/
def chunk_text (text : List Char) (max_chunk_size : Int) : List (List Char) :=
  let st := (splitOnDot text).foldl (chunkStep max_chunk_size) ([], [])
  if st.2 = [] then st.1 else st.1 ++ [st.2]

/-- The buffer-closing behaviour appends the dot back after every split piece;
`withDot` is that decoration. -/
def withDot (p : List Char) : List Char := p ++ ['.']

/-- Characters that are not the sentence delimiter. -/
def notDot (c : Char) : Bool := c != '.'

/-- The record serialized to `progress.json` (src/note_generator.py
lines 155-160): source url, the full chunk sequence, the accumulated notes,
and the index of the next chunk to process. -/
structure Progress where
  video_url : String
  transcript_chunks : List String
  notes : String
  chunk_index : Nat
deriving DecidableEq

/-- Observable events of one run of the generation loop: an invocation of the
generation step on a chunk index, and a write of `progress.json`. -/
inductive Event where
  | invoke : Nat → Event
  | save : Progress → Event
deriving DecidableEq

/-- Result of the loop of `generate_notes`: the returned notes string and the
ordered trace of observable events. -/
structure RunResult where
  notes : String
  events : List Event
deriving DecidableEq

/-- PROMPT_START from src/note_generator.py lines 84-92. -/
def PROMPT_START : String :=
  "\nAct as an expert academic note-taker and content summarizer. Below is the first part of a long lecture transcript. Your task is to analyze this text and generate a comprehensive, structured, and detailed set of notes. The notes must be **written exclusively in simple English**, regardless of the input language.\n\nCrucial Instructions:\n* Analyze the Provided Content: Carefully read the entire text. Identify key themes, definitions, examples, and rules.\n* Knowledge Augmentation: Supplement the notes with your own knowledge to enrich the content where the transcript is brief.\n* Note Structure: Organize the notes with clear headings, bolded key terms, bulleted/numbered lists, and proper formatting for examples and formulas.\n* Final Output: Provide the detailed notes for this section. Do not provide a final summary or conclusion.\n"

/-- PROMPT_CONTINUE from src/note_generator.py lines 94-109, split at the two
format placeholders: the part before the existing notes. -/
def PROMPT_CONTINUE_HEAD : String :=
  "\nAct as an expert academic note-taker and content summarizer. Below is another part of a long lecture transcript. Your task is to analyze this new content and seamlessly incorporate it into the existing notes, ensuring context is maintained and the final document is cohesive. The notes must be **written exclusively in simple English**, regardless of the input language.\n\nCrucial Instructions:\n* Analyze and Integrate: Carefully read the new text and integrate the information into the notes you have already created. Add new sections, sub-points, definitions, and examples as needed.\n* Maintain Context: Do not treat this as a new request. Build directly upon the notes from the previous transcript part, which are provided below.\n* Knowledge Augmentation: Continue to use your own knowledge to supplement and enrich the notes where necessary.\n* Final Output: Provide the updated, more comprehensive set of notes. Do not provide a final summary or conclusion until all parts are provided.\n\n---\nNotes generated so far:\n"

/-- The part of PROMPT_CONTINUE between the two format placeholders. -/
def PROMPT_CONTINUE_MID : String := "\n---\nNew Transcript Part:\n"

/-- `PROMPT_CONTINUE.format(existing_notes=..., new_transcript_chunk=...)`. -/
def promptContinue (existing_notes new_transcript_chunk : String) : String :=
  PROMPT_CONTINUE_HEAD ++ existing_notes ++ PROMPT_CONTINUE_MID
    ++ new_transcript_chunk ++ "\n"

/-- Prompt construction inside the loop (src/note_generator.py lines 145-148):
the start prompt for chunk index 0, the continuation prompt otherwise. -/
def mkPrompt (idx : Nat) (notes chunk : String) : String :=
  if idx = 0 then PROMPT_START ++ chunk
  else promptContinue notes chunk

/-- Loop of `generate_notes` (src/note_generator.py lines 141-169), iterating
over the remaining chunks `transcript_chunks[idx:]` while `idx` tracks
`current_chunk_index`.  `gen` is the external model call; on `Except.error`
(a raised exception) the code prints and returns the current notes, on
`Except.ok` it replaces the notes wholesale, writes `progress.json` with
`chunk_index = idx + 1`, and continues.  `allChunks` is the full sequence
stored in every progress record. -/
def genLoopAux (gen : String → Except String String) (url : String)
    (allChunks : List String) : List String → Nat → String → RunResult
  | [], _, notes => ⟨notes, []⟩
  | chunk :: rest, idx, notes =>
    match gen (mkPrompt idx notes chunk) with
    | Except.error _ => ⟨notes, [Event.invoke idx]⟩
    | Except.ok newNotes =>
      let r := genLoopAux gen url allChunks rest (idx + 1) newNotes
      ⟨r.notes,
        Event.invoke idx :: Event.save ⟨url, allChunks, newNotes, idx + 1⟩
          :: r.events⟩

/-- The loop started at index `start` on `chunks[start:]` with the given
accumulated notes. -/
def genLoop (gen : String → Except String String) (url : String)
    (chunks : List String) (start : Nat) (notes : String) : RunResult :=
  genLoopAux gen url chunks (chunks.drop start) start notes

/-- `start_chunk` as chosen by `generate_notes` (src/note_generator.py
lines 127-139): the resume index if resume data is present, 0 otherwise. -/
def startIndex (resume : Option Progress) : Nat :=
  match resume with
  | some r => r.chunk_index
  | none => 0

/-- Body of `generate_notes` after the model is configured
(src/note_generator.py lines 127-169).  With resume data, the chunk sequence,
notes and start index are taken verbatim from it; otherwise the freshly
fetched, preprocessed and chunked transcript `freshChunks` is used with empty
notes from index 0.  (Transcript retrieval and chunking of the fresh text are
external collaborators here; the resulting chunk sequence is a parameter.) -/
def generate_notes (gen : String → Except String String) (video_url : String)
    (resume : Option Progress) (freshChunks : List String) : RunResult :=
  match resume with
  | some r => genLoop gen video_url r.transcript_chunks r.chunk_index r.notes
  | none => genLoop gen video_url freshChunks 0 ""

/-- Full `generate_notes` including the outer `try/except`
(src/note_generator.py lines 122-172): if any of the setup steps before the
loop raises (API key lookup, model configuration, transcript fetch,
preprocessing, chunking), the exception text `e` is caught and the string
`"An error occurred: " ++ e` is returned with no step invoked and no
checkpoint written. -/
def generate_notes_full (setupErr : Option String)
    (gen : String → Except String String) (video_url : String)
    (resume : Option Progress) (freshChunks : List String) : RunResult :=
  match setupErr with
  | some e => ⟨"An error occurred: " ++ e, []⟩
  | none => generate_notes gen video_url resume freshChunks

/-- The notes value after the first `k` generation steps all succeed, starting
from empty notes at index 0: `some d` if steps `0..k-1` all return `ok`,
`none` if some step fails or `k` exceeds the chunk count. -/
def runNotes (gen : String → Except String String) (chunks : List String) :
    Nat → Option String
  | 0 => some ""
  | k + 1 =>
    match runNotes gen chunks k, chunks[k]? with
    | some notes, some chunk =>
      match gen (mkPrompt k notes chunk) with
      | Except.ok newNotes => some newNotes
      | Except.error _ => none
    | _, _ => none

/-- The notes value after the first `k` steps under a total (never-failing)
deterministic generation stub `g`. -/
def notesAt (g : String → String) (chunks : List String) : Nat → String
  | 0 => ""
  | k + 1 =>
    match chunks[k]? with
    | some chunk => g (mkPrompt k (notesAt g chunks k) chunk)
    | none => notesAt g chunks k

/-- A total deterministic generation stub, lifted to the fallible interface. -/
def okStub (g : String → String) : String → Except String String :=
  fun prompt => Except.ok (g prompt)

/-- The `progress.json` records written during a run, in order. -/
def savedOf (events : List Event) : List Progress :=
  events.filterMap fun e =>
    match e with
    | Event.save p => some p
    | Event.invoke _ => none

/-- The chunk indices handed to the generation step during a run, in order. -/
def invokedOf (events : List Event) : List Nat :=
  events.filterMap fun e =>
    match e with
    | Event.invoke i => some i
    | Event.save _ => none

/-- Python `"An error occurred" in notes` (src/note_generator.py line 213):
substring containment. -/
def containsMarker (notes : String) : Bool :=
  decide ("An error occurred".toList <:+: notes.toList)

/-- The state of the durable `progress.json` record after a run: the last
record written during the run, or the pre-run record if the run wrote none. -/
def storeAfterRun (store0 : Option Progress) (saved : List Progress) :
    Option Progress :=
  match saved.getLast? with
  | some p => some p
  | none => store0

/-- Tail of `main` (src/note_generator.py lines 213-221): if the returned
notes do not contain the substring `"An error occurred"`, the notes are
written to the output file and `progress.json` is removed; otherwise the notes
are only printed, nothing is written and the checkpoint record is left as it
is.  Returns (checkpoint record afterwards, output-file content if written). -/
def mainFinish (notes : String) (store : Option Progress) :
    Option Progress × Option String :=
  if containsMarker notes then (store, none)
  else (none, some notes)

/-- The on-disk state of `progress.json` at program start: absent, present but
not parseable as a well-formed record, or present and well-formed. -/
inductive StoredRecord where
  | absent : StoredRecord
  | malformed : String → StoredRecord
  | valid : Progress → StoredRecord
deriving DecidableEq

/-- Python `not video_url or video_url == progress[...]` on line 189: the CLI
argument is absent or falsy (empty), or equals the stored url. -/
def urlMatches (cliUrl : Option String) (p : Progress) : Bool :=
  match cliUrl with
  | none => true
  | some u => (u == "") || (u == p.video_url)

/-- Checkpoint-loading prologue of `main` (src/note_generator.py
lines 182-206).  `json.load` on an existing but malformed record raises an
uncaught `json.decoder.JSONDecodeError`, modelled as `Except.error` (the
process crashes); there is no surrounding `try`.  Otherwise the result is
(resume data, effective video url, record state after the prologue), where
`resumeChoice` is the interactive resume-or-start-over answer. -/
def mainLoad (stored : StoredRecord) (cliUrl : Option String)
    (resumeChoice : Bool) :
    Except String (Option Progress × Option String × StoredRecord) :=
  match stored with
  | StoredRecord.absent => Except.ok (none, cliUrl, StoredRecord.absent)
  | StoredRecord.malformed raw =>
    Except.error ("json.decoder.JSONDecodeError: " ++ raw)
  | StoredRecord.valid p =>
    if urlMatches cliUrl p then
      if resumeChoice then
        Except.ok (some p, some p.video_url, StoredRecord.valid p)
      else Except.ok (none, cliUrl, StoredRecord.absent)
    else Except.ok (none, cliUrl, StoredRecord.absent)

end NotesGen

namespace NotesGen

lemma splitOnDot_ne_nil (t : List Char) : splitOnDot t ≠ [] := by
  cases t with
  | nil => simp [splitOnDot]
  | cons c rest =>
    by_cases h : c = '.'
    · simp [splitOnDot, h]
    · simp only [splitOnDot, if_neg h]
      cases splitOnDot rest <;> simp

lemma splitOnDot_flatten (t : List Char) :
    (splitOnDot t).flatten = t.filter notDot := by
  induction t with
  | nil => simp [splitOnDot]
  | cons c rest ih =>
    by_cases h : c = '.'
    · subst h
      have hnd : notDot '.' = false := by decide
      simp [splitOnDot, List.filter_cons, hnd, ih]
    · have hnd : notDot c = true := by simp [notDot, h]
      have hne := splitOnDot_ne_nil rest
      simp only [splitOnDot, if_neg h]
      cases hsp : splitOnDot rest with
      | nil => exact absurd hsp hne
      | cons p ps =>
        rw [hsp] at ih
        simp [List.filter_cons, hnd, ← ih]

lemma flatten_map_withDot_filter (parts : List (List Char)) :
    ((parts.map withDot).flatten).filter notDot
      = (parts.flatten).filter notDot := by
  induction parts with
  | nil => simp
  | cons p ps ih =>
    have hdot : notDot '.' = false := by decide
    simp [withDot, List.filter_append, hdot, List.filter_cons, ih]

lemma foldl_chunkStep_flatten (m : Int) (parts : List (List Char))
    (cs : List (List Char)) (cur : List Char) :
    ((parts.foldl (chunkStep m) (cs, cur)).1).flatten
        ++ (parts.foldl (chunkStep m) (cs, cur)).2
      = cs.flatten ++ cur ++ (parts.map withDot).flatten := by
  induction parts generalizing cs cur with
  | nil => simp
  | cons s rest ih =>
    simp only [List.foldl_cons]
    by_cases h : (cur.length + s.length : Int) < m
    · rw [show chunkStep m (cs, cur) s = (cs, cur ++ s ++ ['.']) by
        simp [chunkStep, h]]
      rw [ih]
      simp [withDot, List.append_assoc]
    · rw [show chunkStep m (cs, cur) s = (cs ++ [cur], s ++ ['.']) by
        simp [chunkStep, h]]
      rw [ih]
      simp [withDot, List.append_assoc]

lemma chunk_text_flatten (t : List Char) (m : Int) :
    (chunk_text t m).flatten = ((splitOnDot t).map withDot).flatten := by
  unfold chunk_text
  have h := foldl_chunkStep_flatten m (splitOnDot t) [] []
  simp only [List.flatten_nil, List.nil_append] at h
  set st := (splitOnDot t).foldl (chunkStep m) ([], []) with hst
  by_cases hc : st.2 = []
  · rw [hc] at h
    simp only [List.append_nil] at h
    simp [hc, h]
  · simp [hc, ← h]

/-- C9: concatenating the chunks returned by `chunk_text` in order and ignoring
the delimiter character reconstructs exactly the non-delimiter content of the
original text, in the original order. -/
theorem chunk_text_roundtrip (t : List Char) (m : Int) :
    ((chunk_text t m).flatten).filter notDot = t.filter notDot := by
  rw [chunk_text_flatten, flatten_map_withDot_filter, splitOnDot_flatten,
    List.filter_filter]
  simp

/-- C7 counterexample: on the text of Scenario B with max size 10, `chunk_text`
does not return the two chunks the spec claims. -/
theorem scenarioB_claim_false :
    chunk_text "AAAAAAAAAA. B.".toList 10
      ≠ ["AAAAAAAAAA.".toList, " B.".toList] := by decide

/-- C7 amended: on the text of Scenario B with max size 10, `chunk_text`
returns three chunks: a leading empty chunk, then `"AAAAAAAAAA."`, then
`" B.."` (the trailing split piece is empty, so the final buffer gains an
extra delimiter). -/
theorem scenarioB_actual :
    chunk_text "AAAAAAAAAA. B.".toList 10
      = ["".toList, "AAAAAAAAAA.".toList, " B..".toList] := by decide

/-- C8 counterexample: on the empty text with the default max size 8000,
`chunk_text` does not return an empty sequence. -/
theorem empty_text_claim_false :
    chunk_text "".toList 8000 ≠ [] := by decide

/-- C8 amended: on the empty text, `chunk_text` returns the single chunk
`"."` for every positive max size, and the two chunks `""`, `"."` otherwise
(Python `"".split(".")` is `[""]`, and the loop body always appends the
delimiter to the buffer). -/
theorem chunk_text_empty (m : Int) :
    chunk_text "".toList m = if 0 < m then [['.']] else [[], ['.']] := by
  by_cases h : (0 : Int) < m
  · simp [chunk_text, splitOnDot, chunkStep, h]
  · simp [chunk_text, splitOnDot, chunkStep, h]

lemma genLoop_end (gen : String → Except String String) (url : String)
    (chunks : List String) (idx : Nat) (notes : String)
    (h : chunks.length ≤ idx) : genLoop gen url chunks idx notes = ⟨notes, []⟩ := by
  unfold genLoop
  rw [List.drop_eq_nil_of_le h]
  rfl

lemma genLoop_step_error (gen : String → Except String String) (url : String)
    (chunks : List String) (idx : Nat) (notes e : String)
    (h : idx < chunks.length)
    (hg : gen (mkPrompt idx notes chunks[idx]) = Except.error e) :
    genLoop gen url chunks idx notes = ⟨notes, [Event.invoke idx]⟩ := by
  unfold genLoop
  rw [List.drop_eq_getElem_cons h]
  simp [genLoopAux, hg]

lemma genLoop_step_ok (gen : String → Except String String) (url : String)
    (chunks : List String) (idx : Nat) (notes newNotes : String)
    (h : idx < chunks.length)
    (hg : gen (mkPrompt idx notes chunks[idx]) = Except.ok newNotes) :
    genLoop gen url chunks idx notes =
      ⟨(genLoop gen url chunks (idx + 1) newNotes).notes,
        Event.invoke idx :: Event.save ⟨url, chunks, newNotes, idx + 1⟩
          :: (genLoop gen url chunks (idx + 1) newNotes).events⟩ := by
  unfold genLoop
  rw [List.drop_eq_getElem_cons h]
  simp [genLoopAux, hg]

lemma genLoop_okStub_notes (g : String → String) (url : String)
    (chunks : List String) :
    ∀ n idx, chunks.length - idx = n → idx ≤ chunks.length →
      (genLoop (okStub g) url chunks idx (notesAt g chunks idx)).notes
        = notesAt g chunks chunks.length := by
  intro n
  induction n with
  | zero =>
    intro idx hn hle
    have hidx : idx = chunks.length := by omega
    subst hidx
    rw [genLoop_end _ _ _ _ _ (le_refl _)]
  | succ n ih =>
    intro idx hn hle
    have hlt : idx < chunks.length := by omega
    have hstep : okStub g (mkPrompt idx (notesAt g chunks idx) chunks[idx])
        = Except.ok (g (mkPrompt idx (notesAt g chunks idx) chunks[idx])) := rfl
    rw [genLoop_step_ok _ _ _ _ _ _ hlt hstep]
    have hnotes : notesAt g chunks (idx + 1)
        = g (mkPrompt idx (notesAt g chunks idx) chunks[idx]) := by
      simp [notesAt, List.getElem?_eq_getElem hlt]
    rw [← hnotes]
    exact ih (idx + 1) (by omega) (by omega)

/-- C1: resuming from the checkpoint saved after chunks `[0, k)` (same chunk
sequence, the notes those chunks produced, next index `k`) and finishing with
a deterministic, always-succeeding generation stub returns the same final
notes as running the whole job uninterrupted from index 0. -/
theorem resumption_correct (g : String → String) (url : String)
    (chunks : List String) (k : Nat) (hk : k ≤ chunks.length) :
    (generate_notes (okStub g) url
        (some ⟨url, chunks, notesAt g chunks k, k⟩) chunks).notes
      = (generate_notes (okStub g) url none chunks).notes := by
  show (genLoop (okStub g) url chunks k (notesAt g chunks k)).notes
      = (genLoop (okStub g) url chunks 0 "").notes
  rw [genLoop_okStub_notes g url chunks (chunks.length - k) k rfl hk]
  have h0 : ("" : String) = notesAt g chunks 0 := rfl
  rw [h0, genLoop_okStub_notes g url chunks (chunks.length - 0) 0 rfl
    (Nat.zero_le _)]

lemma savedOf_nil : savedOf [] = [] := rfl

lemma savedOf_cons_invoke (i : Nat) (es : List Event) :
    savedOf (Event.invoke i :: es) = savedOf es := by
  simp [savedOf]

lemma savedOf_cons_save (p : Progress) (es : List Event) :
    savedOf (Event.save p :: es) = p :: savedOf es := by
  simp [savedOf]

lemma invokedOf_nil : invokedOf [] = [] := rfl

lemma invokedOf_cons_invoke (i : Nat) (es : List Event) :
    invokedOf (Event.invoke i :: es) = i :: invokedOf es := by
  simp [invokedOf]

lemma invokedOf_cons_save (p : Progress) (es : List Event) :
    invokedOf (Event.save p :: es) = invokedOf es := by
  simp [invokedOf]

lemma runNotes_le (gen : String → Except String String)
    (chunks : List String) (k : Nat) (x : String)
    (h : runNotes gen chunks k = some x) : k ≤ chunks.length := by
  cases k with
  | zero => exact Nat.zero_le _
  | succ k =>
    by_contra hc
    have hnone : chunks[k]? = none := List.getElem?_eq_none (by omega)
    cases hr : runNotes gen chunks k with
    | none => simp [runNotes, hr] at h
    | some notes => simp [runNotes, hr, hnone] at h

lemma runNotes_isSome_pred (gen : String → Except String String)
    (chunks : List String) (k : Nat)
    (h : (runNotes gen chunks (k + 1)).isSome) :
    (runNotes gen chunks k).isSome := by
  cases hr : runNotes gen chunks k with
  | some notes => simp
  | none => cases hc : chunks[k]? <;> simp [runNotes, hr, hc] at h

lemma runNotes_isSome_of_le (gen : String → Except String String)
    (chunks : List String) (j : Nat) :
    ∀ k, j ≤ k → (runNotes gen chunks k).isSome →
      (runNotes gen chunks j).isSome := by
  intro k
  induction k with
  | zero =>
    intro hjk h
    have : j = 0 := by omega
    subst this
    exact h
  | succ k ih =>
    intro hjk h
    rcases Nat.eq_or_lt_of_le hjk with he | hl
    · subst he; exact h
    · exact ih (by omega) (runNotes_isSome_pred gen chunks k h)

lemma runNotes_succ_ok (gen : String → Except String String)
    (chunks : List String) (k : Nat) (notes newNotes : String)
    (hk : k < chunks.length)
    (hr : runNotes gen chunks k = some notes)
    (hg : gen (mkPrompt k notes chunks[k]) = Except.ok newNotes) :
    runNotes gen chunks (k + 1) = some newNotes := by
  simp [runNotes, hr, List.getElem?_eq_getElem hk, hg]

lemma runNotes_succ_inv (gen : String → Except String String)
    (chunks : List String) (k : Nat) (y : String)
    (h : runNotes gen chunks (k + 1) = some y) :
    ∃ notes, runNotes gen chunks k = some notes ∧
      ∃ hk : k < chunks.length,
        gen (mkPrompt k notes chunks[k]) = Except.ok y := by
  cases hr : runNotes gen chunks k with
  | none => cases hc : chunks[k]? <;> simp [runNotes, hr, hc] at h
  | some notes =>
    cases hc : chunks[k]? with
    | none => simp [runNotes, hr, hc] at h
    | some chunk =>
      have hk : k < chunks.length := by
        by_contra hcon
        rw [List.getElem?_eq_none (by omega)] at hc
        exact Option.noConfusion hc
      have hchunk : chunk = chunks[k] := by
        rw [List.getElem?_eq_getElem hk] at hc
        exact (Option.some.inj hc).symm
      subst hchunk
      simp only [runNotes, hr, hc] at h
      cases hg : gen (mkPrompt k notes chunks[k]) with
      | error e => rw [hg] at h; simp at h
      | ok newNotes =>
        rw [hg] at h
        simp only [Option.some.injEq] at h
        subst h
        exact ⟨notes, rfl, hk, hg⟩

/-- C1 witness: the resumption theorem applied to a concrete two-chunk job
resumed at index 1. -/
theorem resumption_correct_witness :
    1 ≤ (["a", "b"] : List String).length ∧
      (generate_notes (okStub fun _ => "N") "u"
          (some ⟨"u", ["a", "b"], notesAt (fun _ => "N") ["a", "b"] 1, 1⟩)
          ["a", "b"]).notes
        = (generate_notes (okStub fun _ => "N") "u" none ["a", "b"]).notes :=
  ⟨by decide, resumption_correct (fun _ => "N") "u" ["a", "b"] 1 (by decide)⟩

lemma genLoop_fail_aux (gen : String → Except String String) (url : String)
    (chunks : List String) (i : Nat) (d e : String)
    (hi : i < chunks.length)
    (hd : runNotes gen chunks i = some d)
    (hfail : gen (mkPrompt i d chunks[i]) = Except.error e) :
    ∀ n j dj, i - j = n → j ≤ i → runNotes gen chunks j = some dj →
      (genLoop gen url chunks j dj).notes = d ∧
        (savedOf (genLoop gen url chunks j dj).events).map Progress.chunk_index
          = List.range' (j + 1) (i - j) := by
  intro n
  induction n with
  | zero =>
    intro j dj hn hji hdj
    have hji' : j = i := by omega
    subst hji'
    have hdj' : dj = d := by rw [hd] at hdj; exact (Option.some.inj hdj).symm
    subst hdj'
    rw [genLoop_step_error _ _ _ _ _ _ hi hfail]
    refine ⟨rfl, ?_⟩
    simp [savedOf, Nat.sub_self, List.range']
  | succ n ih =>
    intro j dj hn hji hdj
    have hjlt : j < i := by omega
    have hs1 : (runNotes gen chunks (j + 1)).isSome := by
      apply runNotes_isSome_of_le gen chunks (j + 1) i (by omega)
      rw [hd]; rfl
    obtain ⟨dj1, hdj1⟩ := Option.isSome_iff_exists.mp hs1
    obtain ⟨notes', hnotes', hk', hg'⟩ := runNotes_succ_inv gen chunks j dj1 hdj1
    have hnd : notes' = dj := by
      rw [hdj] at hnotes'; exact (Option.some.inj hnotes').symm
    subst hnd
    rw [genLoop_step_ok _ _ _ _ _ _ hk' hg']
    obtain ⟨hn1, hn2⟩ := ih (j + 1) dj1 (by omega) (by omega) hdj1
    refine ⟨hn1, ?_⟩
    show ((savedOf (Event.invoke j :: Event.save ⟨url, chunks, dj1, j + 1⟩
      :: (genLoop gen url chunks (j + 1) dj1).events)).map Progress.chunk_index)
      = List.range' (j + 1) (i - j)
    rw [savedOf_cons_invoke, savedOf_cons_save, List.map_cons, hn2]
    rw [show i - j = (i - (j + 1)) + 1 by omega, List.range'_succ]

/-- C2: when the generation steps for chunks `0..i-1` succeed and the step for
chunk `i` raises, `generate_notes` returns the notes produced after chunk
`i-1` (empty if `i = 0`), and the progress records written are exactly those
for the successful steps: their next-chunk indices are `1, ..., i`, so no
record is written for the failed attempt and the last record written holds
next index `i`. -/
theorem partial_failure (gen : String → Except String String) (url : String)
    (chunks : List String) (i : Nat) (d e : String)
    (hi : i < chunks.length)
    (hd : runNotes gen chunks i = some d)
    (hfail : gen (mkPrompt i d chunks[i]) = Except.error e) :
    (generate_notes gen url none chunks).notes = d ∧
      (savedOf (generate_notes gen url none chunks).events).map
          Progress.chunk_index = List.range' 1 i := by
  have h := genLoop_fail_aux gen url chunks i d e hi hd hfail i 0 ""
    (by omega) (Nat.zero_le _) rfl
  simpa using h

set_option maxRecDepth 40000 in
/-- C2 witness: a two-chunk job whose first step succeeds and whose second
step raises; the returned notes are the first step output and exactly one
progress record, with next index 1, was written. -/
theorem partial_failure_witness :
    (generate_notes
          (fun p => if p = PROMPT_START ++ "a" then Except.ok "N1"
            else Except.error "quota") "u" none ["a", "b"]).notes = "N1" ∧
      (savedOf (generate_notes
          (fun p => if p = PROMPT_START ++ "a" then Except.ok "N1"
            else Except.error "quota") "u" none ["a", "b"]).events).map
          Progress.chunk_index = List.range' 1 1 :=
  partial_failure
    (fun p => if p = PROMPT_START ++ "a" then Except.ok "N1"
      else Except.error "quota") "u" ["a", "b"] 1 "N1" "quota"
    (by decide) (by rfl) (by rfl)

lemma genLoop_saved_aux (gen : String → Except String String) (url : String)
    (chunks : List String) :
    ∀ n idx notes, chunks.length - idx = n → idx ≤ chunks.length →
      runNotes gen chunks idx = some notes →
      ∀ p ∈ savedOf (genLoop gen url chunks idx notes).events,
        p.chunk_index ≤ chunks.length ∧
          runNotes gen chunks p.chunk_index = some p.notes ∧
          p.transcript_chunks = chunks ∧ p.video_url = url := by
  intro n
  induction n with
  | zero =>
    intro idx notes hn hle hr p hp
    have hidx : idx = chunks.length := by omega
    subst hidx
    rw [genLoop_end _ _ _ _ _ (le_refl _)] at hp
    simp [savedOf] at hp
  | succ n ih =>
    intro idx notes hn hle hr p hp
    have hlt : idx < chunks.length := by omega
    cases hg : gen (mkPrompt idx notes chunks[idx]) with
    | error e =>
      rw [genLoop_step_error _ _ _ _ _ _ hlt hg] at hp
      simp [savedOf] at hp
    | ok newNotes =>
      rw [genLoop_step_ok _ _ _ _ _ _ hlt hg] at hp
      have hr1 : runNotes gen chunks (idx + 1) = some newNotes :=
        runNotes_succ_ok gen chunks idx notes newNotes hlt hr hg
      rw [show (RunResult.mk (genLoop gen url chunks (idx + 1) newNotes).notes
          (Event.invoke idx :: Event.save ⟨url, chunks, newNotes, idx + 1⟩
            :: (genLoop gen url chunks (idx + 1) newNotes).events)).events
          = Event.invoke idx :: Event.save ⟨url, chunks, newNotes, idx + 1⟩
            :: (genLoop gen url chunks (idx + 1) newNotes).events from rfl,
        savedOf_cons_invoke, savedOf_cons_save] at hp
      rcases List.mem_cons.mp hp with hpe | hp'
      · subst hpe
        refine ⟨?_, hr1, rfl, rfl⟩
        show idx + 1 ≤ chunks.length
        omega
      · exact ih (idx + 1) newNotes (by omega) (by omega) hr1 p hp'

/-- C3: every progress record written during a run started from no checkpoint,
or from a consistent checkpoint, has a next-chunk index bounded by the chunk
count and a notes snapshot equal to the notes produced by processing exactly
the chunks before that index. -/
theorem checkpoint_invariant (gen : String → Except String String)
    (url : String) (chunks : List String) (resume : Option Progress)
    (hres : ∀ r, resume = some r → r.transcript_chunks = chunks ∧
      r.chunk_index ≤ chunks.length ∧
      runNotes gen chunks r.chunk_index = some r.notes) :
    ∀ p ∈ savedOf (generate_notes gen url resume chunks).events,
      p.chunk_index ≤ chunks.length ∧
        runNotes gen chunks p.chunk_index = some p.notes := by
  intro p hp
  cases resume with
  | none =>
    have h := genLoop_saved_aux gen url chunks (chunks.length - 0) 0 "" rfl
      (Nat.zero_le _) rfl p hp
    exact ⟨h.1, h.2.1⟩
  | some r =>
    obtain ⟨h1, h2, h3⟩ := hres r rfl
    have hp' : p ∈ savedOf (genLoop gen url chunks r.chunk_index r.notes).events := by
      show p ∈ savedOf (genLoop gen url chunks r.chunk_index r.notes).events
      have hpg : p ∈ savedOf
          (genLoop gen url r.transcript_chunks r.chunk_index r.notes).events := hp
      rw [h1] at hpg
      exact hpg
    have h := genLoop_saved_aux gen url chunks (chunks.length - r.chunk_index)
      r.chunk_index r.notes rfl h2 h3 p hp'
    exact ⟨h.1, h.2.1⟩

/-- C3 witness: the checkpoint invariant applied to a concrete fresh one-chunk
run with an always-succeeding step, at the one record that run writes. -/
theorem checkpoint_invariant_witness :
    (⟨"u", ["a"], "N", 1⟩ : Progress).chunk_index
        ≤ (["a"] : List String).length ∧
      runNotes (fun _ => Except.ok "N") ["a"]
          (⟨"u", ["a"], "N", 1⟩ : Progress).chunk_index
        = some (⟨"u", ["a"], "N", 1⟩ : Progress).notes :=
  checkpoint_invariant (fun _ => Except.ok "N") "u" ["a"] none
    (fun r h => by cases h) ⟨"u", ["a"], "N", 1⟩ (by decide)

lemma invokedOf_genLoopAux (gen : String → Except String String) (url : String)
    (all : List String) :
    ∀ (rest : List String) (idx : Nat) (notes : String),
      invokedOf (genLoopAux gen url all rest idx notes).events
        = List.range' idx
            (invokedOf (genLoopAux gen url all rest idx notes).events).length := by
  intro rest
  induction rest with
  | nil => intro idx notes; simp [genLoopAux, invokedOf]
  | cons chunk rest ih =>
    intro idx notes
    cases hg : gen (mkPrompt idx notes chunk) with
    | error e =>
      simp only [genLoopAux, hg]
      rw [invokedOf_cons_invoke, invokedOf_nil]
      simp [List.range'_succ]
    | ok newNotes =>
      simp only [genLoopAux, hg]
      rw [invokedOf_cons_invoke, invokedOf_cons_save]
      rw [List.length_cons, List.range'_succ]
      rw [← ih (idx + 1) newNotes]

lemma saveBefore_genLoopAux (gen : String → Except String String)
    (url : String) (all : List String) :
    ∀ (rest : List String) (idx : Nat) (notes : String) (i : Nat)
      (t1 t2 : List Event), idx ≤ i →
      (genLoopAux gen url all rest idx notes).events
        = t1 ++ Event.invoke (i + 1) :: t2 →
      ∃ p, Event.save p ∈ t1 ∧ p.chunk_index = i + 1 := by
  intro rest
  induction rest with
  | nil =>
    intro idx notes i t1 t2 hle heq
    simp only [genLoopAux] at heq
    cases t1 <;> simp at heq
  | cons chunk rest ih =>
    intro idx notes i t1 t2 hle heq
    cases hg : gen (mkPrompt idx notes chunk) with
    | error e =>
      rw [show (genLoopAux gen url all (chunk :: rest) idx notes).events
          = [Event.invoke idx] by simp [genLoopAux, hg]] at heq
      cases t1 with
      | nil =>
        simp only [List.nil_append, List.cons.injEq] at heq
        have : idx = i + 1 := by
          have := heq.1
          exact Event.invoke.inj this
        omega
      | cons x t1' =>
        simp only [List.cons_append, List.cons.injEq] at heq
        have h2 := heq.2
        cases t1' <;> simp at h2
    | ok newNotes =>
      rw [show (genLoopAux gen url all (chunk :: rest) idx notes).events
          = Event.invoke idx :: Event.save ⟨url, all, newNotes, idx + 1⟩
            :: (genLoopAux gen url all rest (idx + 1) newNotes).events
          by simp [genLoopAux, hg]] at heq
      cases t1 with
      | nil =>
        simp only [List.nil_append, List.cons.injEq] at heq
        have : idx = i + 1 := Event.invoke.inj heq.1
        omega
      | cons x t1' =>
        cases t1' with
        | nil =>
          simp only [List.cons_append, List.nil_append,
            List.cons.injEq] at heq
          exact absurd heq.2.1 (by simp)
        | cons y t1'' =>
          simp only [List.cons_append, List.cons.injEq] at heq
          obtain ⟨hx, hy, hrest⟩ := heq
          by_cases hii : idx = i
          · refine ⟨⟨url, all, newNotes, idx + 1⟩, ?_, by simp [hii]⟩
            rw [← hy]
            exact List.mem_cons_of_mem _ (List.mem_cons_self _ _)
          · obtain ⟨p, hp1, hp2⟩ :=
              ih (idx + 1) newNotes i t1'' t2 (by omega) hrest
            exact ⟨p, List.mem_cons_of_mem _ (List.mem_cons_of_mem _ hp1), hp2⟩

/-- C4: within one run, the generation step is invoked on consecutive chunk
indices starting at the resume index (no index skipped or repeated), and
whenever step `i + 1` begins within the run, a progress record with next
index `i + 1` was written before it. -/
theorem ordering_strict (gen : String → Except String String) (url : String)
    (resume : Option Progress) (fresh : List String) :
    invokedOf (generate_notes gen url resume fresh).events
        = List.range' (startIndex resume)
            (invokedOf (generate_notes gen url resume fresh).events).length
      ∧ ∀ i t1 t2, startIndex resume ≤ i →
          (generate_notes gen url resume fresh).events
            = t1 ++ Event.invoke (i + 1) :: t2 →
          ∃ p, Event.save p ∈ t1 ∧ p.chunk_index = i + 1 := by
  cases resume with
  | none =>
    exact ⟨invokedOf_genLoopAux gen url fresh (fresh.drop 0) 0 "",
      fun i t1 t2 hle heq =>
        saveBefore_genLoopAux gen url fresh (fresh.drop 0) 0 "" i t1 t2 hle heq⟩
  | some r =>
    exact ⟨invokedOf_genLoopAux gen url r.transcript_chunks
        (r.transcript_chunks.drop r.chunk_index) r.chunk_index r.notes,
      fun i t1 t2 hle heq =>
        saveBefore_genLoopAux gen url r.transcript_chunks
          (r.transcript_chunks.drop r.chunk_index) r.chunk_index r.notes
          i t1 t2 hle heq⟩

/-- C4 witness: the ordering theorem applied to a concrete fresh two-chunk
run, extracting the progress record committed before step 1 begins. -/
theorem ordering_strict_witness :
    ∃ p, Event.save p ∈ [Event.invoke 0,
        Event.save ⟨"u", ["a", "b"], "N", 1⟩] ∧ p.chunk_index = 0 + 1 :=
  (ordering_strict (fun _ => Except.ok "N") "u" none ["a", "b"]).2 0
    [Event.invoke 0, Event.save ⟨"u", ["a", "b"], "N", 1⟩]
    [Event.save ⟨"u", ["a", "b"], "N", 2⟩] (Nat.le_refl 0) (by decide)

lemma genLoop_complete (gen : String → Except String String) (url : String)
    (chunks : List String) (d : String)
    (hall : runNotes gen chunks chunks.length = some d) :
    ∀ n idx notes, chunks.length - idx = n →
      runNotes gen chunks idx = some notes →
      (genLoop gen url chunks idx notes).notes = d := by
  intro n
  induction n with
  | zero =>
    intro idx notes hn hr
    have hle := runNotes_le gen chunks idx notes hr
    have hidx : idx = chunks.length := by omega
    subst hidx
    rw [genLoop_end _ _ _ _ _ (le_refl _)]
    rw [hall] at hr
    exact Option.some.inj hr.symm
  | succ n ih =>
    intro idx notes hn hr
    have hlt : idx < chunks.length := by omega
    have hs1 : (runNotes gen chunks (idx + 1)).isSome := by
      apply runNotes_isSome_of_le gen chunks (idx + 1) chunks.length (by omega)
      rw [hall]; rfl
    obtain ⟨d1, hd1⟩ := Option.isSome_iff_exists.mp hs1
    obtain ⟨notes', hnotes', hk, hg⟩ := runNotes_succ_inv gen chunks idx d1 hd1
    have hne : notes' = notes := by
      rw [hr] at hnotes'; exact (Option.some.inj hnotes').symm
    subst hne
    rw [genLoop_step_ok _ _ _ _ _ _ hk hg]
    exact ih (idx + 1) d1 (by omega) hd1

/-- C5 counterexample: a fresh one-chunk run in which every generation step
succeeds, yet afterwards `main` does not clear the checkpoint record, because
the successfully generated document happens to contain the substring
`"An error occurred"` that `main` uses to detect failure. -/
theorem completion_claim_counterexample :
    runNotes (fun _ => Except.ok "An error occurred: fake") ["a"] 1
        = some "An error occurred: fake" ∧
      (mainFinish
          (generate_notes (fun _ => Except.ok "An error occurred: fake") "u"
            none ["a"]).notes
          (storeAfterRun none
            (savedOf (generate_notes
              (fun _ => Except.ok "An error occurred: fake") "u"
              none ["a"]).events))).1 ≠ none := by
  exact ⟨rfl, by decide⟩

/-- C5 amended: when every generation step succeeds through the last chunk
and the final document does not contain the substring `"An error occurred"`,
the run returns the last step output as the final document and the checkpoint
record is cleared (absent afterwards), with the document written as the
output artifact. -/
theorem completion_amended (gen : String → Except String String)
    (url : String) (chunks : List String) (d : String)
    (store0 : Option Progress)
    (hall : runNotes gen chunks chunks.length = some d)
    (hmark : containsMarker d = false) :
    (generate_notes gen url none chunks).notes = d ∧
      mainFinish (generate_notes gen url none chunks).notes
          (storeAfterRun store0
            (savedOf (generate_notes gen url none chunks).events))
        = (none, some d) := by
  have hnotes : (generate_notes gen url none chunks).notes = d :=
    genLoop_complete gen url chunks d hall chunks.length 0 "" (by omega) rfl
  refine ⟨hnotes, ?_⟩
  rw [hnotes]
  simp [mainFinish, hmark]

/-- C5 witness: the amended completion theorem applied to a concrete
one-chunk run whose output does not contain the failure marker. -/
theorem completion_amended_witness :
    (generate_notes (fun _ => Except.ok "N") "u" none ["a"]).notes = "N" ∧
      mainFinish (generate_notes (fun _ => Except.ok "N") "u" none ["a"]).notes
          (storeAfterRun none
            (savedOf (generate_notes (fun _ => Except.ok "N") "u"
              none ["a"]).events))
        = (none, some "N") :=
  completion_amended (fun _ => Except.ok "N") "u" ["a"] "N" none rfl (by decide)

/-- C10: the outer exception handler of `generate_notes` returns the string
`"An error occurred: "` followed by the exception text instead of raising;
and `main` classifies results solely by that substring, so a fully successful
run whose document contains `"An error occurred"` is treated as a failure:
nothing is written to the output file and the checkpoint record is left in
place. -/
theorem inband_error_signalling (e : String)
    (gen : String → Except String String) (url : String)
    (resume : Option Progress) (fresh chunks : List String)
    (store : Option Progress) (d : String) :
    (generate_notes_full (some e) gen url resume fresh).notes
        = "An error occurred: " ++ e
      ∧ (runNotes gen chunks chunks.length = some d →
          containsMarker d = true →
          mainFinish (generate_notes_full none gen url none chunks).notes
              (storeAfterRun store
                (savedOf (generate_notes_full none gen url none chunks).events))
            = (storeAfterRun store
                (savedOf (generate_notes_full none gen url none chunks).events),
              none)) := by
  refine ⟨rfl, fun hall hmark => ?_⟩
  have hnotes : (generate_notes_full none gen url none chunks).notes = d :=
    genLoop_complete gen url chunks d hall chunks.length 0 "" (by omega) rfl
  rw [hnotes]
  simp [mainFinish, hmark]

/-- C10 witness: a setup failure with text `"boom"`, and a fully successful
concrete run whose document contains the marker and is therefore classified
as a failure by `main`. -/
theorem inband_error_signalling_witness :
    (generate_notes_full (some "boom")
          (fun _ => Except.ok "An error occurred: fake") "u" none
          ["a"]).notes = "An error occurred: " ++ "boom" ∧
      mainFinish (generate_notes_full none
            (fun _ => Except.ok "An error occurred: fake") "u" none
            ["a"]).notes
          (storeAfterRun none (savedOf (generate_notes_full none
            (fun _ => Except.ok "An error occurred: fake") "u" none
            ["a"]).events))
        = (storeAfterRun none (savedOf (generate_notes_full none
            (fun _ => Except.ok "An error occurred: fake") "u" none
            ["a"]).events), none) :=
  ⟨(inband_error_signalling "boom"
      (fun _ => Except.ok "An error occurred: fake") "u" none ["a"] ["a"]
      none "An error occurred: fake").1,
    (inband_error_signalling "boom"
      (fun _ => Except.ok "An error occurred: fake") "u" none ["a"] ["a"]
      none "An error occurred: fake").2 rfl (by decide)⟩

/-- C6: evaluating the checkpoint-loading prologue of `main` on an existing
but malformed `progress.json` record: `json.load` raises an uncaught decode
error and the run crashes, instead of treating the record as no usable
checkpoint and degrading to a fresh start. -/
theorem mainLoad_malformed_crash :
    mainLoad (StoredRecord.malformed "not json") none true
      = Except.error ("json.decoder.JSONDecodeError: " ++ "not json") := rfl

end NotesGen
